import Mathlib

/-!
Verification development for the megu resource-fetch engine
(`src/megu/download/http.py`, `src/megu/utils.py`, `src/megu/models/http.py`).

The Python code is shallowly embedded: pure helpers become Lean functions,
the streaming / filesystem side effects of the downloader are made explicit
as a `Trace` record threaded through the functions, and Python exceptions
become `Except` errors.  Machine integers are modelled as `Int`/`Nat`
(Python integers are unbounded, so no wrap-around modelling is needed).
-/

namespace Megu

/-- A byte string (Python `bytes`), each element a byte value. -/
abbrev Bytes := List Nat

/-- Python-level errors raised by the downloader and its helpers.
`outOfFuel` is a model artifact only: it truncates the size-unknown range
generator, which in the source is infinite (`_iter_ranges` with `size=None`
"will never exit"); no theorem below depends on that branch. -/
inductive DlErr where
  | invalidSize
  | alreadyExists
  | typeError
  | valueError
  | noContent
  | badStatus (code : Nat)
  | rangeIterationFailed
  | rangeRequestFailed (code : Nat)
  | unhandledStatus (code : Nat)
  | outOfFuel
deriving DecidableEq, Repr

/-- An HTTP response as the downloader sees it: status code, headers and the
already-buffered body bytes (`response.iter_content` streams this body). -/
structure Response where
  status : Nat
  headers : List (String × String)
  body : Bytes
deriving DecidableEq, Repr

/-- `requests.Response.ok`: true iff the status code is below 400. -/
def Response.ok (r : Response) : Bool := r.status < 400

/-- The ASCII whitespace characters of Python's `str.strip` and of the
regex class `\s`. -/
def isSpaceC (c : Char) : Bool :=
  c = ' ' || c = '\t' || c = '\n' || c = '\r' || c = '\x0b' || c = '\x0c'

/-- Python `str.strip()`: drop leading and trailing whitespace. -/
def pyStrip (s : String) : String :=
  String.mk (((s.data.dropWhile isSpaceC).reverse.dropWhile isSpaceC).reverse)

/-- ASCII case folding of one character (`str.lower` on the ASCII range,
which covers HTTP header names), on code points. -/
def lowerNat (c : Char) : Nat :=
  if 65 ≤ c.toNat ∧ c.toNat ≤ 90 then c.toNat + 32 else c.toNat

/-- Case-insensitive string comparison, as used by the key lookup of
`requests`' `CaseInsensitiveDict`. -/
def eqCaseInsensitive (a b : String) : Bool :=
  a.data.map lowerNat == b.data.map lowerNat

/-- Header lookup.  `requests` stores headers in a `CaseInsensitiveDict`,
so `"content-range" in response.headers` compares keys case-insensitively. -/
def getHeader (r : Response) (key : String) : Option String :=
  (r.headers.find? (fun kv => eqCaseInsensitive kv.1 key)).map Prod.snd

/-- The value of a list of decimal digit characters. -/
def digitsVal (cs : List Char) : Nat :=
  cs.foldl (fun acc c => acc * 10 + (c.toNat - 48)) 0

/-- Python `int(s)` on a string: surrounding whitespace is ignored, an
optional sign is followed by decimal digits (digit-group underscores are
not modelled; none of the inputs reaching `int` here contain them);
anything else raises `ValueError`. -/
def pyInt (s : String) : Except DlErr Int :=
  let num (ds : List Char) : Except DlErr Nat :=
    if ds ≠ [] ∧ ds.all Char.isDigit then .ok (digitsVal ds) else .error .valueError
  match ((s.data.dropWhile isSpaceC).reverse.dropWhile isSpaceC).reverse with
  | '-' :: ds => (num ds).map (fun n => -(n : Int))
  | '+' :: ds => (num ds).map (fun n => (n : Int))
  | ds => (num ds).map (fun n => (n : Int))

/-- Python `int(x)` where `x` is an optional string: `int(None)` raises
`TypeError` (this is what `int(range_groups["start"])` does when the
`start` group did not participate in the match). -/
def pyIntOpt (s : Option String) : Except DlErr Int :=
  match s with
  | none => .error .typeError
  | some v => pyInt v

/-! ### The Content-Range pattern

`CONTENT_RANGE_PATTERN = ^(?P<unit>.*)\s+(?:(?:(?P<start>\d+)-(?P<end>\d+))|\*)\/(?P<size>\d+|\*)$`

The match is modelled as a deterministic parser with the same greedy
backtracking semantics: the size group follows the last `/` of the string
(neither the middle alternation nor `\s` can contain `/`), and the greedy
`unit` group makes the whitespace/middle split the rightmost one possible.
Content-Range header values cannot contain newlines, so `.*` is modelled
as matching any character. -/

/-- The captured groups of a `CONTENT_RANGE_PATTERN` match, as
`match.groupdict()` exposes them: every named group is present as a key,
and a group that did not participate holds `None`. -/
structure RangeGroups where
  unit : Option String
  start? : Option String
  end? : Option String
  size? : Option String
deriving DecidableEq, Repr

/-- The key set of `match.groupdict()` for `CONTENT_RANGE_PATTERN`:
all four named groups are always present as keys, matched or not. -/
def groupdictKeys : List String := ["unit", "start", "end", "size"]

/-- Parse the middle alternation `(?:(?:(?P<start>\d+)-(?P<end>\d+))|\*)`:
either a literal `*` (groups unbound) or `digits-digits` (both captured). -/
def parseMid (m : List Char) : Option (Option String × Option String) :=
  if m = ['*'] then some (none, none)
  else
    let ds := m.takeWhile Char.isDigit
    let rest := m.dropWhile Char.isDigit
    match rest with
    | '-' :: tl =>
        if ds ≠ [] ∧ tl ≠ [] ∧ tl.all Char.isDigit then
          some (some (String.mk ds), some (String.mk tl))
        else none
    | _ => none

/-- Scan split positions right-to-left: the greedy `unit` group makes the
middle part start at the largest position `k` whose preceding character is
whitespace and whose suffix parses as the middle alternation. -/
def findSplitAux (t : List Char) : Nat → Option (List Char × (Option String × Option String))
  | 0 => none
  | k + 1 =>
      match (if h : k < t.length then
               (if isSpaceC (t.get ⟨k, h⟩) then
                  (parseMid (t.drop (k + 1))).map (fun g => (t.take k, g))
                else none)
             else none) with
      | some r => some r
      | none => findSplitAux t k

/-- Model of `CONTENT_RANGE_PATTERN.match`: returns the captured groups, or
`none` when the value does not match the pattern. -/
def contentRangeMatch (s : String) : Option RangeGroups :=
  let cs := s.data
  let rev := cs.reverse
  let szRev := rev.takeWhile (fun c => ¬ c = '/')
  let restRev := rev.dropWhile (fun c => ¬ c = '/')
  match restRev with
  | '/' :: frontRev =>
      let sz := szRev.reverse
      if sz ≠ [] ∧ (sz = ['*'] ∨ sz.all Char.isDigit) then
        let t := frontRev.reverse
        match findSplitAux t t.length with
        | some (unitCs, (st, en)) =>
            some { unit := some (String.mk unitCs), start? := st, end? := en,
                   size? := some (String.mk sz) }
        | none => none
      else none
  | _ => none

/-! ### The range planner `HttpDownloader._iter_ranges`

The loop is embedded with structural fuel so that it stays kernel-computable;
`iterRanges` supplies enough fuel for the loop to run to its natural exit
when `size` is provided.  `iterRangesInf` is the `size=None` variant, which
in the source never exits: it returns the first `fuel` yields. -/

/-- The advance of the loop:
`end + (chunk_size if chunk_size else ((end - start) + 1))`.
Both `None` and `0` are falsy in Python, so they fall back to the width of
the current range. -/
def rangeStep (chunkSize : Option Int) (s e : Int) : Int :=
  match chunkSize with
  | some c => if c = 0 then e - s + 1 else c
  | none => e - s + 1

/-- Fueled body of `_iter_ranges` when `size` is provided: while
`end ≤ size`, break if `start > end`, otherwise yield `(start, end)`,
cap the next end at `size`, and continue from `end + 1`. -/
def iterRangesF (chunkSize : Option Int) (size : Int) : Nat → Int → Int → List (Int × Int)
  | 0, _, _ => []
  | fuel + 1, s, e =>
      if e ≤ size ∧ s ≤ e then
        let ne := e + rangeStep chunkSize s e
        (s, e) :: iterRangesF chunkSize size fuel (e + 1) (if ne > size then size else ne)
      else []

/-- `_iter_ranges(start, end, size=size, chunk_size=chunk_size)` with `size`
provided: the fuel bound `(size + 1 - start).toNat + 1` dominates the number
of loop iterations, so this is the exact finite yield sequence. -/
def iterRanges (s e size : Int) (chunkSize : Option Int) : List (Int × Int) :=
  iterRangesF chunkSize size ((size + 1 - s).toNat + 1) s e

/-- `_iter_ranges(start, end, size=None, ...)`: the loop condition is
always true, no capping happens, and the generator never exits; this model
returns its first `fuel` yields. -/
def iterRangesInf (chunkSize : Option Int) : Nat → Int → Int → List (Int × Int)
  | 0, _, _ => []
  | fuel + 1, s, e =>
      if s ≤ e then
        (s, e) :: iterRangesInf chunkSize fuel (e + 1) (e + rangeStep chunkSize s e)
      else []

/-! ### Body streaming

`response.iter_content(chunk_size=n)` yields the body in chunks of `n`
bytes (a shorter final chunk, nothing for an empty body).  All call sites
use a positive chunk size (the default is `2 ** 12`); the fueled model
below is exact for every positive chunk size. -/

/-- Fueled chunk splitter (fuel bounds the number of chunks). -/
def chunkBytesF (cs : Nat) : Nat → Bytes → List Bytes
  | _, [] => []
  | 0, _ => []
  | fuel + 1, b => b.take cs :: chunkBytesF cs fuel (b.drop cs)

/-- `response.iter_content(chunk_size=cs)` on a buffered body. -/
def chunkBytes (cs : Nat) (b : Bytes) : List Bytes :=
  chunkBytesF cs b.length b

/-- Observable effects of one download call: the content of the target file
(`none` while the path does not exist), the chunks passed to
`file_handle.write` in order, the argument lists of the `update_hook`
invocations in order, the sizes passed to successful storage allocations,
and the `Range` header values of the follow-up requests issued by the
partial handler. -/
structure Trace where
  file : Option Bytes
  writes : List Bytes
  hookCalls : List (List Int)
  allocations : List Int
  issuedRanges : List String
deriving DecidableEq, Repr

/-- The trace at the start of a fetch whose target path holds `f`. -/
def Trace.init (f : Option Bytes) : Trace :=
  { file := f, writes := [], hookCalls := [], allocations := [], issuedRanges := [] }

/-- The write loop shared by both handlers: write each chunk after the
accumulated content and invoke `update_hook(len(chunk))` — a single
positional argument per invocation, recorded as the argument list. -/
def writeChunks : List Bytes → Bytes → List (List Int) → Bytes × List (List Int)
  | [], acc, hooks => (acc, hooks)
  | c :: rest, acc, hooks => writeChunks rest (acc ++ c) (hooks ++ [[(c.length : Int)]])

/-- `utils.allocate_storage` restricted to the single target path of a
download call (the full filesystem model, with parent-directory creation,
is `allocate_storage` below; the downloader only observes this projection):
sizes `≤ 0` raise, an existing target raises, otherwise the file is
created with `size` zero bytes (seek to `size - 1`, write one NUL). -/
def allocateTarget (file : Option Bytes) (size : Int) : Except DlErr Bytes :=
  if size ≤ 0 then .error .invalidSize
  else
    match file with
    | some _ => .error .alreadyExists
    | none => .ok (List.replicate size.toNat 0)

/-- Python `f"{x!s}"` on an optional string: `None` prints as `"None"`. -/
def pyStrOpt (s : Option String) : String :=
  match s with
  | none => "None"
  | some v => v

/-! ### `HttpDownloader._download_normal`

If a `content-length` header is present, storage of that size is allocated
first (an allocation failure propagates); then the target is opened with
mode `"wb"` (truncating any previous content) and the body is streamed
chunk by chunk, invoking `update_hook(len(chunk))` after each write.  The
call resolves to the target path. -/
def downloadNormal (resp : Response) (toPath : String) (cs : Nat) (t : Trace) :
    Trace × Except DlErr String :=
  let write (t : Trace) : Trace × Except DlErr String :=
    let wc := writeChunks (chunkBytes cs resp.body) [] []
    ({ t with file := some wc.1, writes := t.writes ++ chunkBytes cs resp.body,
              hookCalls := t.hookCalls ++ wc.2 }, .ok toPath)
  match getHeader resp "content-length" with
  | some v =>
      match pyInt v with
      | .error e => (t, .error e)
      | .ok total =>
          match allocateTarget t.file total with
          | .error e => (t, .error e)
          | .ok content =>
              write { t with file := some content,
                             allocations := t.allocations ++ [total] }
  | none => write t

/-- The range-chase loop of `_download_partial` (lines 252-287): for each
subsequent `(start, end)` issue a request with header
`Range: {unit}={start}-{end}`; a non-ok answer is tolerated as natural
end-of-stream only when the total size is unknown and the status is 416,
otherwise it raises; an ok answer is appended (mode `"ab"`) to the file,
invoking the hook per chunk.  The environment is modelled by `server`,
mapping the issued `Range` value to the next response (the other request
fields are the fixed copies of the original resource).  The `[]` case with
an unknown total is the fuel artifact of the infinite generator. -/
def followRanges (server : String → Response) (unitStr : String)
    (totalKnown : Bool) (cs : Nat) (toPath : String) :
    List (Int × Int) → Trace → Trace × Except DlErr String
  | [], t =>
      if totalKnown then (t, .ok toPath) else (t, .error .outOfFuel)
  | (s, e) :: rest, t =>
      let rangeHeader := unitStr ++ "=" ++ toString s ++ "-" ++ toString e
      let t := { t with issuedRanges := t.issuedRanges ++ [rangeHeader] }
      let nextResp := server rangeHeader
      if ¬ nextResp.ok then
        if ¬ totalKnown ∧ nextResp.status = 416 then (t, .ok toPath)
        else (t, .error (.rangeRequestFailed nextResp.status))
      else
        let wc := writeChunks (chunkBytes cs nextResp.body) (t.file.getD []) []
        followRanges server unitStr totalKnown cs toPath rest
          { t with file := some wc.1, writes := t.writes ++ chunkBytes cs nextResp.body,
                   hookCalls := t.hookCalls ++ wc.2 }

/-- `HttpDownloader._download_partial`.  No `content-range` header, or a
value that fails `CONTENT_RANGE_PATTERN`, falls back to `_download_normal`
on the same response.  The third guard mirrors the source literally:
`"start" not in range_groups or "end" not in range_groups` — but
`match.groupdict()` always contains every named group as a key (with value
`None` when the group did not match), so this membership test is always
false and the guard never falls back.  Afterwards the total size is taken
from the `size` group (`*` meaning unknown), storage is allocated when it
is known, the first body is written (mode `"wb"`), and
`int(range_groups["start"])` / `int(range_groups["end"])` seed the range
planner — raising `TypeError` when those groups are unbound.  The first
planned range is skipped (the first response already covered it); an
immediately exhausted planner is success when the total is known and
`ValueError` otherwise. -/
def downloadPartial (resp : Response) (server : String → Response)
    (toPath : String) (cs : Nat) (fuel : Nat) (t : Trace) :
    Trace × Except DlErr String :=
  match getHeader resp "content-range" with
  | none => downloadNormal resp toPath cs t
  | some crValue =>
    match contentRangeMatch (pyStrip crValue) with
    | none => downloadNormal resp toPath cs t
    | some g =>
      if ¬ ("start" ∈ groupdictKeys) ∨ ¬ ("end" ∈ groupdictKeys) then
        downloadNormal resp toPath cs t
      else
        let totalE : Except DlErr (Option Int) :=
          match g.size? with
          | some v => if v ≠ "" ∧ v ≠ "*" then (pyInt v).map some else .ok none
          | none => .ok none
        match totalE with
        | .error e => (t, .error e)
        | .ok total =>
          let allocE : Except DlErr Trace :=
            match total with
            | some ts =>
                match allocateTarget t.file ts with
                | .error e => .error e
                | .ok content =>
                    .ok { t with file := some content,
                                 allocations := t.allocations ++ [ts] }
            | none => .ok t
          match allocE with
          | .error e => (t, .error e)
          | .ok t1 =>
            let wc := writeChunks (chunkBytes cs resp.body) [] []
            let t2 := { t1 with file := some wc.1,
                                writes := t1.writes ++ chunkBytes cs resp.body,
                                hookCalls := t1.hookCalls ++ wc.2 }
            match pyIntOpt g.start? with
            | .error e => (t2, .error e)
            | .ok s0 =>
              match pyIntOpt g.end? with
              | .error e => (t2, .error e)
              | .ok e0 =>
                let ranges :=
                  match total with
                  | some ts => iterRanges s0 e0 ts none
                  | none => iterRangesInf none fuel s0 e0
                match ranges with
                | [] =>
                    if total.isSome then (t2, .ok toPath)
                    else (t2, .error .rangeIterationFailed)
                | _ :: rest =>
                    followRanges server (pyStrOpt g.unit) total.isSome cs toPath rest t2

/-- `HttpDownloader.download_resource`: branch on the status of the first
response.  `not response.ok` (status ≥ 400) raises with the status; 204
raises "has no content"; 200 and 206 dispatch to the matching handler and
return the index with the downloaded path (the source also echoes the
resource back in the triple); anything else raises "unhandled status code".
`server` answers the follow-up range requests of the partial handler. -/
def downloadResource (resp : Response) (server : String → Response) (idx : Nat)
    (toPath : String) (cs : Nat) (fuel : Nat) (t : Trace) :
    Trace × Except DlErr (Nat × String) :=
  if ¬ resp.ok then (t, .error (.badStatus resp.status))
  else if resp.status = 204 then (t, .error .noContent)
  else if resp.status = 200 ∨ resp.status = 206 then
    let r := if resp.status = 200 then downloadNormal resp toPath cs t
             else downloadPartial resp server toPath cs fuel t
    match r.2 with
    | .ok p => (r.1, .ok (idx, p))
    | .error e => (r.1, .error e)
  else (t, .error (.unhandledStatus resp.status))

/-! ### `utils.allocate_storage` over a small filesystem model

Paths are component lists; the filesystem is the set of directories plus a
map from file paths to contents.  `mkdir(parents=True)` creates every
missing ancestor.  Conflicts between a file and a directory of the same
name (exotic states `pathlib` would reject) are not modelled. -/

/-- A filesystem path as its list of components. -/
abbrev PathT := List String

/-- Directories and regular files with their contents. -/
structure FS where
  dirs : List PathT
  files : List (PathT × Bytes)
deriving DecidableEq, Repr

/-- `Path.is_dir()`. -/
def FS.isDir (fs : FS) (p : PathT) : Bool := fs.dirs.contains p

/-- Content of a regular file, when present. -/
def FS.readFile (fs : FS) (p : PathT) : Option Bytes :=
  (fs.files.find? (fun e => e.1 == p)).map (·.2)

/-- `Path.exists()`: true for directories and regular files alike. -/
def FS.pathExists (fs : FS) (p : PathT) : Bool :=
  fs.isDir p || (fs.readFile p).isSome

/-- Create or truncate a regular file with the given content. -/
def FS.writeFileRaw (fs : FS) (p : PathT) (c : Bytes) : FS :=
  { fs with files := (p, c) :: fs.files.filter (fun e => ¬ e.1 == p) }

/-- The non-empty ancestor chain of a path, shortest first. -/
def prefixesOf (p : PathT) : List PathT :=
  (List.range p.length).map (fun i => p.take (i + 1))

/-- `Path.mkdir(mode=0o777, parents=True)`: create the path and every
missing ancestor as directories. -/
def FS.mkdirParents (fs : FS) (p : PathT) : FS :=
  { fs with dirs := fs.dirs ++ (prefixesOf p).filter (fun q => ¬ fs.dirs.contains q) }

/-- `utils.allocate_storage(to_path, size)`: `size ≤ 0` raises
`ValueError`; an existing path raises `FileExistsError`; otherwise the
parent directory chain is created when missing and the file is created with
`size` bytes (open `"wb"`, seek to `size - 1`, write one NUL byte — a
sparse file that reads back as `size` zero bytes), returning the given
path. -/
def allocate_storage (fs : FS) (toPath : PathT) (size : Int) :
    Except DlErr (FS × PathT) :=
  if size ≤ 0 then .error .invalidSize
  else if fs.pathExists toPath then .error .alreadyExists
  else
    let fs1 := if ¬ fs.isDir toPath.dropLast then fs.mkdirParents toPath.dropLast else fs
    .ok (fs1.writeFileRaw toPath (List.replicate size.toNat 0), toPath)

/-! ### `HttpDownloader.download_content`: re-ordering the fetch results

Workers are submitted per `enumerate(content.resources)` index and their
results are collected in completion order (`as_completed`); the manifest's
artifact list is produced by sorting the collected triples on the original
index (`sorted(results, key=lambda result: result[0])`) and dropping the
index.  The completion order is modelled as an arbitrary permutation of
the submitted results. -/

/-- Python `enumerate` starting at `i`. -/
def enumerateFrom {α : Type} : Nat → List α → List (Nat × α)
  | _, [] => []
  | i, x :: xs => (i, x) :: enumerateFrom (i + 1) xs

/-- The manifest projection of `download_content`: sort the collected
`(index, payload)` results ascending by index (Python's `sorted` is a
stable merge sort) and keep the payloads. -/
def downloadArtifacts {α : Type} (results : List (Nat × α)) : List α :=
  (results.mergeSort (fun a b => a.1 ≤ b.1)).map Prod.snd

/-! ### `HttpResource._get_signature` and `fingerprint`

`headers` is modelled as an ordered association list of strings rendered by
Python's `str(dict)`; `repr` of the keys and values is modelled for strings
that need no escaping (no quotes, backslashes or control characters — the
only forms appearing below).  String-to-byte encoding is modelled on code
points, which coincides with UTF-8 for the ASCII data used here. -/

/-- The nine HTTP methods of `HttpMethod`. -/
inductive HttpMethodM where
  | GET | HEAD | POST | PUT | DELETE | CONNECT | OPTIONS | TRACE | PATCH
deriving DecidableEq, Repr

/-- `HttpMethod.value`. -/
def HttpMethodM.value : HttpMethodM → String
  | .GET => "GET"
  | .HEAD => "HEAD"
  | .POST => "POST"
  | .PUT => "PUT"
  | .DELETE => "DELETE"
  | .CONNECT => "CONNECT"
  | .OPTIONS => "OPTIONS"
  | .TRACE => "TRACE"
  | .PATCH => "PATCH"

/-- An `HttpResource`: method, URL (the string form of the validated
`AnyHttpUrl`, whose query part admits any character except whitespace and
`#`), ordered headers, optional body, and the optional authentication
callable (opaque, identified by an id). -/
structure HttpResourceM where
  method : HttpMethodM
  url : String
  headers : List (String × String)
  data : Option Bytes
  auth : Option Nat
deriving DecidableEq, Repr

/-- Python `repr` of a string without characters needing escapes. -/
def pyReprStr (s : String) : String := "\x27" ++ s ++ "\x27"

/-- Python `str(dict)` for a string-keyed, string-valued dict
(insertion-ordered). -/
def pyStrHeaders (h : List (String × String)) : String :=
  "\x7b" ++
    String.intercalate ", " (h.map fun kv => pyReprStr kv.1 ++ ": " ++ pyReprStr kv.2) ++
    "\x7d"

/-- Code-point encoding of a string (UTF-8 for the ASCII range). -/
def encodeStr (s : String) : Bytes := s.data.map Char.toNat

/-- `HttpResource._get_signature`:
`bytes("|".join((str(method.value), str(url), str(headers))), "utf-8")`,
plus `b"|" + data` when a body is present (`124` is `"|"`). -/
def getSignature (r : HttpResourceM) : Bytes :=
  encodeStr (r.method.value ++ "|" ++ r.url ++ "|" ++ pyStrHeaders r.headers) ++
    (match r.data with
     | none => []
     | some d => 124 :: d)

/-- `HttpResource.fingerprint`: the digest of the signature under the
(deterministic) xxhash digest function, abstracted as `hash`. -/
def fingerprint (hash : Bytes → String) (r : HttpResourceM) : String :=
  hash (getSignature r)

/-- The staging file name `f"{content.id!s}.{resource.fingerprint!s}"`
used by `download_content`. -/
def stagingName (hash : Bytes → String) (contentId : String) (r : HttpResourceM) : String :=
  contentId ++ "." ++ fingerprint hash r

/-- Ceiling division on integers with positive divisor:
`intCeilDiv a b = ⌈a / b⌉` (used to state the range-count property). -/
def intCeilDiv (a b : Int) : Int := (a + b - 1) / b

/-- The hook-per-write correspondence of a trace: one hook invocation per
written chunk, in order, whose single argument is that chunk's byte
count. -/
def HookPerWrite (t : Trace) : Prop :=
  t.hookCalls = t.writes.map (fun c => [(c.length : Int)])

/-! ### Helper lemmas -/

theorem writeChunks_spec (l : List Bytes) (acc : Bytes) (hooks : List (List Int)) :
    writeChunks l acc hooks =
      (acc ++ l.flatten, hooks ++ l.map (fun c => [(c.length : Int)])) := by
  induction l generalizing acc hooks with
  | nil => simp [writeChunks]
  | cons c rest ih => simp [writeChunks, ih]

theorem chunkBytesF_flatten (cs : Nat) (hcs : 0 < cs) :
    ∀ (fuel : Nat) (b : Bytes), b.length ≤ fuel → (chunkBytesF cs fuel b).flatten = b := by
  intro fuel
  induction fuel with
  | zero =>
      intro b hb
      cases b with
      | nil => simp [chunkBytesF]
      | cons x xs => simp at hb
  | succ f ih =>
      intro b hb
      cases b with
      | nil => simp [chunkBytesF]
      | cons x xs =>
          have hlen : (x :: xs).length = xs.length + 1 := by simp
          have hdrop : ((x :: xs).drop cs).length ≤ f := by
            rw [List.length_drop, hlen]
            rw [hlen] at hb
            omega
          simp only [chunkBytesF, List.flatten]
          rw [ih _ hdrop, List.take_append_drop]

theorem chunkBytes_flatten (cs : Nat) (hcs : 0 < cs) (b : Bytes) :
    (chunkBytes cs b).flatten = b :=
  chunkBytesF_flatten cs hcs b.length b le_rfl

theorem hookPerWrite_append (t : Trace) (l : List Bytes) (ht : HookPerWrite t) :
    t.hookCalls ++ l.map (fun c => [(c.length : Int)]) =
      (t.writes ++ l).map (fun c => [(c.length : Int)]) := by
  rw [List.map_append, ht]

theorem downloadNormal_hookPerWrite (resp : Response) (toPath : String) (cs : Nat)
    (t : Trace) (ht : HookPerWrite t) :
    HookPerWrite (downloadNormal resp toPath cs t).1 := by
  rcases hg : getHeader resp "content-length" with _ | v
  · simp only [downloadNormal, hg]
    rw [writeChunks_spec]
    exact hookPerWrite_append t _ ht
  · rcases hp : pyInt v with e | total
    · simp only [downloadNormal, hg, hp]
      exact ht
    · rcases ha : allocateTarget t.file total with e | content
      · simp only [downloadNormal, hg, hp, ha]
        exact ht
      · simp only [downloadNormal, hg, hp, ha]
        rw [writeChunks_spec]
        exact hookPerWrite_append t _ ht

theorem followRanges_hookPerWrite (server : String → Response) (unitStr : String)
    (totalKnown : Bool) (cs : Nat) (toPath : String) :
    ∀ (ranges : List (Int × Int)) (t : Trace), HookPerWrite t →
      HookPerWrite (followRanges server unitStr totalKnown cs toPath ranges t).1 := by
  intro ranges
  induction ranges with
  | nil =>
      intro t ht
      simp only [followRanges]
      split
      · exact ht
      · exact ht
  | cons r rest ih =>
      intro t ht
      obtain ⟨s, e⟩ := r
      simp only [followRanges]
      split
      · split
        · exact ht
        · exact ht
      · rw [writeChunks_spec]
        exact ih _ (hookPerWrite_append t _ ht)

theorem downloadPartial_hookPerWrite (resp : Response) (server : String → Response)
    (toPath : String) (cs fuel : Nat) (t : Trace) (ht : HookPerWrite t) :
    HookPerWrite (downloadPartial resp server toPath cs fuel t).1 := by
  rcases hcr : getHeader resp "content-range" with _ | cr
  · simp only [downloadPartial, hcr]
    exact downloadNormal_hookPerWrite resp toPath cs t ht
  · rcases hm : contentRangeMatch (pyStrip cr) with _ | g
    · simp only [downloadPartial, hcr, hm]
      exact downloadNormal_hookPerWrite resp toPath cs t ht
    · simp only [downloadPartial, hcr, hm]
      rw [if_neg (by decide)]
      unfold HookPerWrite
      simp only [writeChunks_spec]
      split
      · exact ht
      · split
        · exact ht
        · rename_i t1 heq
          have ht1 : HookPerWrite t1 := by
            split at heq
            · split at heq
              · exact absurd heq (by simp)
              · cases heq
                exact ht
            · cases heq
              exact ht
          split
          · exact hookPerWrite_append t1 _ ht1
          · split
            · exact hookPerWrite_append t1 _ ht1
            · split
              · split
                · exact hookPerWrite_append t1 _ ht1
                · exact hookPerWrite_append t1 _ ht1
              · exact followRanges_hookPerWrite _ _ _ _ _ _ _
                  (hookPerWrite_append t1 _ ht1)

/-! ### Claim theorems -/

/-- C10: two resources that agree on method, url, headers and data but
differ only in their auth callable have the same signature, hence the same
fingerprint under any digest function, and therefore the same staging file
name within one content item. -/
theorem fingerprint_ignores_auth (hash : Bytes → String) (contentId : String)
    (m : HttpMethodM) (u : String) (h : List (String × String)) (d : Option Bytes)
    (a1 a2 : Option Nat) :
    fingerprint hash ⟨m, u, h, d, a1⟩ = fingerprint hash ⟨m, u, h, d, a2⟩ ∧
    stagingName hash contentId ⟨m, u, h, d, a1⟩ = stagingName hash contentId ⟨m, u, h, d, a2⟩ :=
  ⟨rfl, rfl⟩

/-- C7: `allocate_storage` fails with the invalid-size error when
`size ≤ 0`, fails with the already-exists error when the path exists, and
otherwise creates the missing parent directories, creates a file of exactly
`size` bytes at the path, and returns the given path unchanged. -/
theorem allocate_storage_spec (fs : FS) (p : PathT) (size : Int) :
    (size ≤ 0 → allocate_storage fs p size = .error .invalidSize) ∧
    (0 < size → fs.pathExists p → allocate_storage fs p size = .error .alreadyExists) ∧
    (0 < size → ¬ fs.pathExists p →
      ∃ fs' : FS,
        allocate_storage fs p size = .ok (fs', p) ∧
        fs'.readFile p = some (List.replicate size.toNat 0) ∧
        ((List.replicate size.toNat (0 : Nat)).length : Int) = size ∧
        (p.dropLast ≠ [] → fs'.isDir p.dropLast = true)) := by
  refine ⟨?_, ?_, ?_⟩
  · intro h
    simp [allocate_storage, h]
  · intro h1 h2
    simp [allocate_storage, h2, show ¬ size ≤ 0 from by omega]
  · intro h1 h2
    refine ⟨FS.writeFileRaw
        (if ¬ fs.isDir p.dropLast then fs.mkdirParents p.dropLast else fs) p
        (List.replicate size.toNat 0), ?_, ?_, ?_, ?_⟩
    · simp [allocate_storage, h2, show ¬ size ≤ 0 from by omega]
    · simp [FS.readFile, FS.writeFileRaw]
    · simp
      omega
    · intro hp
      by_cases hd : fs.isDir p.dropLast
      · rw [if_neg (by simp [hd])]
        simpa [FS.writeFileRaw, FS.isDir] using hd
      · rw [if_pos hd]
        have hself : p.dropLast ∈ prefixesOf p.dropLast := by
          have hlen : 0 < p.dropLast.length := List.length_pos.mpr hp
          refine List.mem_map.mpr ⟨p.dropLast.length - 1, ?_, ?_⟩
          · exact List.mem_range.mpr (by omega)
          · rw [show p.dropLast.length - 1 + 1 = p.dropLast.length from by omega]
            exact List.take_length _
        have hnotin : ¬ fs.dirs.contains p.dropLast := by
          simpa [FS.isDir] using hd
        simp only [FS.writeFileRaw, FS.isDir, FS.mkdirParents]
        refine List.elem_eq_true_of_mem (List.mem_append.mpr (Or.inr ?_))
        refine List.mem_filter.mpr ⟨hself, ?_⟩
        simpa using hnotin

/-- C7 witness: allocating 3 bytes at `a/b/f` in an empty filesystem. -/
theorem allocate_storage_witness :
    (0 : Int) < 3 ∧ ¬ (FS.pathExists ⟨[], []⟩ ["a", "b", "f"]) ∧
    ∃ fs' : FS,
      allocate_storage ⟨[], []⟩ ["a", "b", "f"] 3 = .ok (fs', ["a", "b", "f"]) ∧
      fs'.readFile ["a", "b", "f"] = some (List.replicate (3 : Int).toNat 0) ∧
      ((List.replicate (3 : Int).toNat (0 : Nat)).length : Int) = 3 ∧
      ((["a", "b", "f"] : PathT).dropLast ≠ [] →
        fs'.isDir (["a", "b", "f"] : PathT).dropLast = true) :=
  ⟨by decide, by decide,
    (allocate_storage_spec ⟨[], []⟩ ["a", "b", "f"] 3).2.2 (by decide) (by decide)⟩

/-- C6: the single-resource fetch succeeds only for statuses 200 and 206;
a 204 response raises the no-content error, a status of 400 or above raises
an error carrying that status, any other status (e.g. 201) raises the
unhandled-status error carrying that status, and no failure case returns a
path. -/
theorem downloadResource_status_gate (resp : Response) (server : String → Response)
    (idx : Nat) (toPath : String) (cs fuel : Nat) (t : Trace) :
    (¬ resp.status < 400 →
      downloadResource resp server idx toPath cs fuel t = (t, .error (.badStatus resp.status))) ∧
    (resp.status = 204 →
      downloadResource resp server idx toPath cs fuel t = (t, .error .noContent)) ∧
    (resp.status < 400 → resp.status ≠ 204 → resp.status ≠ 200 → resp.status ≠ 206 →
      downloadResource resp server idx toPath cs fuel t =
        (t, .error (.unhandledStatus resp.status))) ∧
    (∀ (t' : Trace) (x : Nat × String),
      downloadResource resp server idx toPath cs fuel t = (t', .ok x) →
      resp.status = 200 ∨ resp.status = 206) := by
  refine ⟨?_, ?_, ?_, ?_⟩
  · intro h
    simp [downloadResource, Response.ok, h]
  · intro h
    simp [downloadResource, Response.ok, h]
  · intro h1 h2 h3 h4
    simp [downloadResource, Response.ok, h1, h2, h3, h4]
  · intro t' x h
    by_cases h200 : resp.status = 200
    · exact Or.inl h200
    by_cases h206 : resp.status = 206
    · exact Or.inr h206
    exfalso
    by_cases h400 : resp.status < 400
    · by_cases h204 : resp.status = 204
      · rw [show downloadResource resp server idx toPath cs fuel t =
            (t, .error .noContent) from by simp [downloadResource, Response.ok, h400, h204]] at h
        simp at h
      · rw [show downloadResource resp server idx toPath cs fuel t =
            (t, .error (.unhandledStatus resp.status)) from by
              simp [downloadResource, Response.ok, h400, h204, h200, h206]] at h
        simp at h
    · rw [show downloadResource resp server idx toPath cs fuel t =
          (t, .error (.badStatus resp.status)) from by
            simp [downloadResource, Response.ok, h400]] at h
      simp at h

/-- C6 witness: a 201 response fails with the unhandled-status error
carrying 201. -/
theorem downloadResource_status_witness :
    (201 : Nat) < 400 ∧
    downloadResource ⟨201, [], [1]⟩ (fun _ => ⟨416, [], []⟩) 0 "p" 4096 0 (Trace.init none) =
      (Trace.init none, .error (.unhandledStatus 201)) :=
  ⟨by decide,
    (downloadResource_status_gate ⟨201, [], [1]⟩ (fun _ => ⟨416, [], []⟩) 0 "p" 4096 0
        (Trace.init none)).2.2.1 (by decide) (by decide) (by decide) (by decide)⟩

/-- C5 counterexample: with a stale file at the target and a response that
carries a size header, the fetch does not delete the stale file and
succeed — storage allocation raises the already-exists error. -/
theorem stale_refetch_cex :
    downloadNormal ⟨200, [("Content-Length", "4")], [9, 9, 9, 9]⟩ "p" 4096
        (Trace.init (some [1, 2, 3])) =
      (Trace.init (some [1, 2, 3]), .error .alreadyExists) := rfl

/-- C5 amended: with a stale file at the target, a re-fetch whose response
has no size header truncates on open and succeeds with exactly the new
bytes; but when the response carries a (positive, parseable) size header,
storage allocation fails with the already-exists error instead of deleting
the stale file. -/
theorem stale_refetch_amended (stale : Bytes) (resp : Response) (toPath : String)
    (cs : Nat) (hcs : 0 < cs) :
    (getHeader resp "content-length" = none →
      downloadNormal resp toPath cs (Trace.init (some stale)) =
        ({ file := some resp.body, writes := chunkBytes cs resp.body,
           hookCalls := (chunkBytes cs resp.body).map (fun c => [(c.length : Int)]),
           allocations := [], issuedRanges := [] }, .ok toPath)) ∧
    (∀ v : String, getHeader resp "content-length" = some v →
      ∀ n : Int, pyInt v = .ok n → 0 < n →
      downloadNormal resp toPath cs (Trace.init (some stale)) =
        (Trace.init (some stale), .error .alreadyExists)) := by
  constructor
  · intro h
    simp only [downloadNormal, h]
    rw [writeChunks_spec]
    simp [Trace.init, chunkBytes_flatten cs hcs]
  · intro v hv n hn hpos
    simp only [downloadNormal, hv, hn]
    simp [allocateTarget, Trace.init, show ¬ n ≤ 0 from by omega]

/-- C5 witness: re-fetching over stale bytes `[1,2,3]` with a 200 response
without a size header replaces the file with exactly the new body. -/
theorem stale_refetch_witness :
    (0 : Nat) < 4096 ∧ getHeader ⟨200, [], [9, 9, 9, 9]⟩ "content-length" = none ∧
    downloadNormal ⟨200, [], [9, 9, 9, 9]⟩ "p" 4096 (Trace.init (some [1, 2, 3])) =
      ({ file := some (⟨200, [], [9, 9, 9, 9]⟩ : Response).body,
         writes := chunkBytes 4096 (⟨200, [], [9, 9, 9, 9]⟩ : Response).body,
         hookCalls := (chunkBytes 4096 (⟨200, [], [9, 9, 9, 9]⟩ : Response).body).map
           (fun c => [(c.length : Int)]),
         allocations := [], issuedRanges := [] }, .ok "p") :=
  ⟨by decide, rfl,
    (stale_refetch_amended [1, 2, 3] ⟨200, [], [9, 9, 9, 9]⟩ "p" 4096 (by decide)).1 rfl⟩

/-- C9 counterexample: the update hook is invoked with a single positional
argument (the chunk length), not with both the chunk length and the total
size — here the sole invocation receives the one-element argument list
`[4]`. -/
theorem update_hook_args_cex :
    (downloadNormal ⟨200, [], [7, 7, 7, 7]⟩ "p" 4096 (Trace.init none)).1.hookCalls = [[4]] ∧
    ¬ (∀ c ∈ (downloadNormal ⟨200, [], [7, 7, 7, 7]⟩ "p" 4096
                (Trace.init none)).1.hookCalls, c.length = 2) := by
  constructor
  · rfl
  · intro h
    have := h [4] (by rw [show (downloadNormal ⟨200, [], [7, 7, 7, 7]⟩ "p" 4096
        (Trace.init none)).1.hookCalls = [[4]] from rfl]; simp)
    simp at this

/-- C9 amended: during any fetch (normal or partial), the update hook is
invoked synchronously exactly once after each chunk write, in order, each
invocation passing a single argument — the number of bytes in that chunk;
the total size is not passed.  Starting from a fresh trace, the hook
invocation list of either handler equals the per-chunk byte counts of the
chunks written, one invocation per write; for the normal handler the
written chunks on success are exactly the chunks of the body. -/
theorem update_hook_per_chunk_amended :
    (∀ (resp : Response) (toPath : String) (cs : Nat) (t : Trace) (p : String),
      t.hookCalls = [] → t.writes = [] →
      ((downloadNormal resp toPath cs t).1.hookCalls =
        (downloadNormal resp toPath cs t).1.writes.map (fun c => [(c.length : Int)])) ∧
      ((downloadNormal resp toPath cs t).2 = .ok p →
        (downloadNormal resp toPath cs t).1.writes = chunkBytes cs resp.body)) ∧
    (∀ (resp : Response) (server : String → Response) (toPath : String) (cs fuel : Nat)
      (t : Trace), t.hookCalls = [] → t.writes = [] →
      (downloadPartial resp server toPath cs fuel t).1.hookCalls =
        (downloadPartial resp server toPath cs fuel t).1.writes.map
          (fun c => [(c.length : Int)])) := by
  constructor
  · intro resp toPath cs t p ht hw
    have hinv : HookPerWrite t := by
      unfold HookPerWrite
      rw [ht, hw]
      rfl
    refine ⟨downloadNormal_hookPerWrite resp toPath cs t hinv, ?_⟩
    intro hok
    rcases hg : getHeader resp "content-length" with _ | v
    · simp only [downloadNormal, hg]
      simp [hw]
    · rcases hp : pyInt v with e | total
      · rw [show (downloadNormal resp toPath cs t).2 = .error e from by
          simp [downloadNormal, hg, hp]] at hok
        simp at hok
      · rcases ha : allocateTarget t.file total with e | content
        · rw [show (downloadNormal resp toPath cs t).2 = .error e from by
            simp [downloadNormal, hg, hp, ha]] at hok
          simp at hok
        · simp only [downloadNormal, hg, hp, ha]
          simp [hw]
  · intro resp server toPath cs fuel t ht hw
    exact downloadPartial_hookPerWrite resp server toPath cs fuel t (by
      unfold HookPerWrite
      rw [ht, hw]
      rfl)

/-- C9 witness: a fresh normal fetch of a four-byte body, and a fresh
partial fetch chasing `bytes 0-1/4`, each record one hook invocation per
written chunk carrying that chunk's byte count. -/
theorem update_hook_per_chunk_witness :
    ((Trace.init none).hookCalls = [] ∧ (Trace.init none).writes = []) ∧
    ((downloadNormal ⟨200, [], [7, 7, 7, 7]⟩ "q" 4096 (Trace.init none)).1.hookCalls =
      (downloadNormal ⟨200, [], [7, 7, 7, 7]⟩ "q" 4096 (Trace.init none)).1.writes.map
        (fun c => [(c.length : Int)])) ∧
    ((downloadPartial ⟨206, [("Content-Range", "bytes 0-1/4")], [5, 5]⟩
        (fun h => if h = "bytes=2-3" then ⟨206, [], [6, 6]⟩ else ⟨416, [], []⟩)
        "q" 4096 0 (Trace.init none)).1.hookCalls =
      (downloadPartial ⟨206, [("Content-Range", "bytes 0-1/4")], [5, 5]⟩
        (fun h => if h = "bytes=2-3" then ⟨206, [], [6, 6]⟩ else ⟨416, [], []⟩)
        "q" 4096 0 (Trace.init none)).1.writes.map (fun c => [(c.length : Int)])) :=
  ⟨⟨rfl, rfl⟩,
    (update_hook_per_chunk_amended.1 ⟨200, [], [7, 7, 7, 7]⟩ "q" 4096 (Trace.init none) "q"
      rfl rfl).1,
    update_hook_per_chunk_amended.2 ⟨206, [("Content-Range", "bytes 0-1/4")], [5, 5]⟩
      (fun h => if h = "bytes=2-3" then ⟨206, [], [6, 6]⟩ else ⟨416, [], []⟩)
      "q" 4096 0 (Trace.init none) rfl rfl⟩

theorem enumerateFrom_map_snd {α : Type} : ∀ (i : Nat) (l : List α),
    (enumerateFrom i l).map Prod.snd = l := by
  intro i l
  induction l generalizing i with
  | nil => rfl
  | cons x xs ih => simp [enumerateFrom, ih]

theorem enumerateFrom_map_fst {α : Type} : ∀ (i : Nat) (l : List α),
    (enumerateFrom i l).map Prod.fst = List.range' i l.length := by
  intro i l
  induction l generalizing i with
  | nil => rfl
  | cons x xs ih => simp [enumerateFrom, List.range', ih]

theorem enumerateFrom_fst_ge {α : Type} : ∀ (i : Nat) (l : List α),
    ∀ x ∈ enumerateFrom i l, i ≤ x.1 := by
  intro i l
  induction l generalizing i with
  | nil => simp [enumerateFrom]
  | cons y ys ih =>
      intro x hx
      rcases List.mem_cons.mp hx with rfl | hx
      · exact le_rfl
      · exact Nat.le_of_lt (Nat.lt_of_lt_of_le (Nat.lt_succ_self i) (ih (i + 1) x hx))

theorem enumerateFrom_pairwise {α : Type} : ∀ (i : Nat) (l : List α),
    (enumerateFrom i l).Pairwise (fun a b => a.1 < b.1) := by
  intro i l
  induction l generalizing i with
  | nil => exact List.Pairwise.nil
  | cons y ys ih =>
      refine List.Pairwise.cons ?_ (ih (i + 1))
      intro x hx
      exact Nat.lt_of_lt_of_le (Nat.lt_succ_self i) (enumerateFrom_fst_ge (i + 1) ys x hx)

/-- C4: for every completion order of the per-resource fetch results
(modelled as an arbitrary permutation of the indexed results), the
manifest's artifact list is the payloads sorted back into original index
order, so `artifacts[i]` corresponds to `content.resources[i]`. -/
theorem downloadArtifacts_restores_order {α : Type} (items : List α)
    (results : List (Nat × α)) (hperm : results.Perm (enumerateFrom 0 items)) :
    downloadArtifacts results = items := by
  have hsortperm : (results.mergeSort (fun a b => a.1 ≤ b.1)).Perm (enumerateFrom 0 items) :=
    (List.mergeSort_perm results _).trans hperm
  have hle : (results.mergeSort (fun a b => a.1 ≤ b.1)).Pairwise
      (fun a b => (decide (a.1 ≤ b.1)) = true) :=
    List.sorted_mergeSort
      (fun a b c h1 h2 => by
        simp only [decide_eq_true_eq] at *
        omega)
      (fun a b => by
        simp only [Bool.or_eq_true, decide_eq_true_eq]
        omega)
      results
  have hnodupEnum : ((enumerateFrom 0 items).map Prod.fst).Nodup := by
    rw [enumerateFrom_map_fst]
    exact List.nodup_range' 0 items.length
  have hnodup : ((results.mergeSort (fun a b => a.1 ≤ b.1)).map Prod.fst).Nodup :=
    ((hsortperm.map Prod.fst).nodup_iff).mpr hnodupEnum
  have hne : (results.mergeSort (fun a b => a.1 ≤ b.1)).Pairwise
      (fun a b => a.1 ≠ b.1) := List.pairwise_map.mp hnodup
  have hlt : (results.mergeSort (fun a b => a.1 ≤ b.1)).Pairwise
      (fun a b => a.1 < b.1) := by
    refine (hle.and hne).imp ?_
    intro a b hab
    rcases hab with ⟨h1, h2⟩
    simp only [decide_eq_true_eq] at h1
    omega
  haveI : IsAntisymm (Nat × α) (fun a b => a.1 < b.1) :=
    ⟨fun a b h1 h2 => absurd (Nat.lt_trans h1 h2) (Nat.lt_irrefl _)⟩
  have heq : results.mergeSort (fun a b => a.1 ≤ b.1) = enumerateFrom 0 items :=
    List.eq_of_perm_of_sorted hsortperm hlt (enumerateFrom_pairwise 0 items)
  unfold downloadArtifacts
  rw [heq, enumerateFrom_map_snd]

/-- C4 witness: resources `[A, B, C]` completing in order `C, A, B` are
re-ordered back to `[A, B, C]`. -/
theorem downloadArtifacts_order_witness :
    ([(2, "C"), (0, "A"), (1, "B")] : List (Nat × String)).Perm
      (enumerateFrom 0 ["A", "B", "C"]) ∧
    downloadArtifacts [(2, "C"), (0, "A"), (1, "B")] = ["A", "B", "C"] :=
  ⟨by decide, downloadArtifacts_restores_order ["A", "B", "C"]
    [(2, "C"), (0, "A"), (1, "B")] (by decide)⟩

/-- C1: the partial handler falls back to the normal handler on the same
response when the Content-Range header is absent or fails the pattern; but
for a header that matches the pattern while binding no start/end (here
`bytes */512`) it does NOT fall back: `match.groupdict()` always contains
the `start`/`end` keys, so the guard in the source never fires and
`int(range_groups["start"])` raises `TypeError` — after storage was
allocated and the first body written. -/
theorem contentRange_fallback_bug :
    (∀ (resp : Response) (server : String → Response) (toPath : String) (cs fuel : Nat)
      (t : Trace), getHeader resp "content-range" = none →
      downloadPartial resp server toPath cs fuel t = downloadNormal resp toPath cs t) ∧
    (∀ (resp : Response) (server : String → Response) (toPath : String) (cs fuel : Nat)
      (t : Trace) (cr : String), getHeader resp "content-range" = some cr →
      contentRangeMatch (pyStrip cr) = none →
      downloadPartial resp server toPath cs fuel t = downloadNormal resp toPath cs t) ∧
    (downloadPartial ⟨206, [("Content-Range", "bytes */512")], List.replicate 8 3⟩
        (fun _ => ⟨416, [], []⟩) "p" 4096 0 (Trace.init none) =
      ({ file := some (List.replicate 8 3), writes := [List.replicate 8 3],
         hookCalls := [[8]], allocations := [512], issuedRanges := [] },
       .error .typeError)) := by
  refine ⟨?_, ?_, ?_⟩
  · intro resp server toPath cs fuel t h
    simp [downloadPartial, h]
  · intro resp server toPath cs fuel t cr h1 h2
    simp [downloadPartial, h1, h2]
  · rfl

/-- C1 witness: a 206 response without a Content-Range header is handled
exactly like a 200 response (same result, same trace, no error, no
follow-up request). -/
theorem contentRange_fallback_witness :
    getHeader ⟨206, [], [5, 5]⟩ "content-range" = none ∧
    downloadPartial ⟨206, [], [5, 5]⟩ (fun _ => ⟨416, [], []⟩) "p" 4096 0 (Trace.init none) =
      downloadNormal ⟨206, [], [5, 5]⟩ "p" 4096 (Trace.init none) :=
  ⟨rfl, contentRange_fallback_bug.1 ⟨206, [], [5, 5]⟩ (fun _ => ⟨416, [], []⟩) "p" 4096 0
    (Trace.init none) rfl⟩

set_option maxRecDepth 100000 in
/-- C2: for the RFC-correct exchange — first response
`206 Content-Range: bytes 0-255/512` with a 256-byte body, follow-up
`bytes=256-511` answered `206 Content-Range: bytes 256-511/512` with a
256-byte body, any further range answered 416 — storage is allocated at
512 bytes and the two bodies are appended, but the planner (which treats
the total size as an inclusive final end) yields the extra range
`(512, 512)`, so the handler issues a second follow-up `bytes=512-512`
past the end of the resource and raises on the 416 answer instead of
returning success after the single follow-up. -/
theorem partial_reassembly_off_by_one :
    (downloadPartial ⟨206, [("Content-Range", "bytes 0-255/512")], List.replicate 256 1⟩
        (fun h => if h = "bytes=256-511"
          then ⟨206, [("Content-Range", "bytes 256-511/512")], List.replicate 256 2⟩
          else ⟨416, [], []⟩) "p" 4096 0 (Trace.init none)) =
      ({ file := some (List.replicate 256 1 ++ List.replicate 256 2),
         writes := [List.replicate 256 1, List.replicate 256 2],
         hookCalls := [[256], [256]],
         allocations := [512],
         issuedRanges := ["bytes=256-511", "bytes=512-512"] },
       .error (.rangeRequestFailed 416)) := by
  rfl

theorem pipe_split : ∀ (a b x y : List Char), '|' ∉ a → '|' ∉ b →
    a ++ '|' :: x = b ++ '|' :: y → a = b ∧ x = y := by
  intro a
  induction a with
  | nil =>
      intro b x y _ hb h
      cases b with
      | nil =>
          simp only [List.nil_append, List.cons.injEq] at h
          exact ⟨rfl, h.2⟩
      | cons c bs =>
          simp only [List.nil_append, List.cons_append, List.cons.injEq] at h
          exact absurd (h.1 ▸ List.mem_cons_self c bs) hb
  | cons c as ih =>
      intro b x y ha hb h
      cases b with
      | nil =>
          simp only [List.cons_append, List.nil_append, List.cons.injEq] at h
          exact absurd (h.1 ▸ List.mem_cons_self c as) ha
      | cons d bs =>
          simp only [List.cons_append, List.cons.injEq] at h
          have hrec := ih bs x y (fun hm => ha (List.mem_cons_of_mem c hm))
            (fun hm => hb (List.mem_cons_of_mem d hm)) h.2
          exact ⟨by rw [h.1, hrec.1], hrec.2⟩

theorem string_ext (s1 s2 : String) (h : s1.data = s2.data) : s1 = s2 := by
  cases s1
  cases s2
  exact congrArg String.mk h

theorem encodeStr_inj (s1 s2 : String) (h : encodeStr s1 = encodeStr s2) : s1 = s2 := by
  have hchar : Function.Injective Char.toNat := by
    intro c1 c2 hc
    have := congrArg Char.ofNat hc
    rwa [Char.ofNat_toNat, Char.ofNat_toNat] at this
  exact string_ext s1 s2 (List.map_injective_iff.mpr hchar h)

theorem method_value_nopipe : ∀ m : HttpMethodM, '|' ∉ m.value.data := by
  intro m
  cases m <;> decide

theorem method_value_inj : ∀ m1 m2 : HttpMethodM, m1.value = m2.value → m1 = m2 := by
  intro m1 m2
  cases m1 <;> cases m2 <;> decide

theorem signature_data (m : HttpMethodM) (u : String) (hs : List (String × String)) :
    (m.value ++ "|" ++ u ++ "|" ++ pyStrHeaders hs).data =
      m.value.data ++ '|' :: (u.data ++ '|' :: (pyStrHeaders hs).data) := by
  simp [String.data_append]

/-- C8 counterexample: the signature fed to the hash is not injective over
(method, url, headers, body): a URL containing the `|` separator makes two
distinct resources — one with no body, one with body `{}` — produce the
same signature byte string, hence the same fingerprint under any digest. -/
theorem signature_not_injective_cex :
    getSignature ⟨.GET, "http://a.com/?x=|\x7b\x7d", [], none, none⟩ =
      getSignature ⟨.GET, "http://a.com/?x=", [], some (encodeStr "\x7b\x7d"), none⟩ ∧
    ("http://a.com/?x=|\x7b\x7d" : String) ≠ "http://a.com/?x=" ∧
    (none : Option Bytes) ≠ some (encodeStr "\x7b\x7d") := by
  refine ⟨by decide, by decide, by decide⟩

/-- C8 amended: the fingerprint is deterministic (equal field values give
equal signatures, hence equal digests), and the signature determines
method and url when neither url contains the `|` join separator and
headers and body agree; but the signature is not injective over all four
fields — a `|` inside the url can collide with a body
(`signature_not_injective_cex`). -/
theorem signature_inj_amended (m1 m2 : HttpMethodM) (u1 u2 : String)
    (hs : List (String × String)) (d : Option Bytes) (a1 a2 : Option Nat)
    (hu1 : '|' ∉ u1.data) (hu2 : '|' ∉ u2.data)
    (hsig : getSignature ⟨m1, u1, hs, d, a1⟩ = getSignature ⟨m2, u2, hs, d, a2⟩) :
    m1 = m2 ∧ u1 = u2 ∧
    ∀ hash : Bytes → String,
      fingerprint hash ⟨m1, u1, hs, d, a1⟩ = fingerprint hash ⟨m2, u2, hs, d, a2⟩ := by
  unfold getSignature at hsig
  have hcancel : encodeStr (m1.value ++ "|" ++ u1 ++ "|" ++ pyStrHeaders hs) =
      encodeStr (m2.value ++ "|" ++ u2 ++ "|" ++ pyStrHeaders hs) := by
    rcases d with _ | db
    · simpa using hsig
    · simpa using hsig
  have hstr := encodeStr_inj _ _ hcancel
  have hdata : m1.value.data ++ '|' :: (u1.data ++ '|' :: (pyStrHeaders hs).data) =
      m2.value.data ++ '|' :: (u2.data ++ '|' :: (pyStrHeaders hs).data) := by
    rw [← signature_data, ← signature_data, hstr]
  have hsplit1 := pipe_split _ _ _ _ (method_value_nopipe m1) (method_value_nopipe m2) hdata
  have hsplit2 := pipe_split _ _ _ _ hu1 hu2 hsplit1.2
  have hm : m1 = m2 := method_value_inj m1 m2 (string_ext _ _ hsplit1.1)
  have hu : u1 = u2 := string_ext u1 u2 hsplit2.1
  refine ⟨hm, hu, ?_⟩
  intro hash
  unfold fingerprint
  rw [show getSignature ⟨m1, u1, hs, d, a1⟩ = getSignature ⟨m2, u2, hs, d, a2⟩ from by
    unfold getSignature
    rw [hm, hu]]

/-- C8 witness: for pipe-free urls the restricted injectivity applies —
instantiated at two syntactically equal resources. -/
theorem signature_inj_witness :
    ('|' ∉ ("http://a.com/v" : String).data) ∧
    (HttpMethodM.GET = HttpMethodM.GET ∧ ("http://a.com/v" : String) = "http://a.com/v" ∧
      ∀ hash : Bytes → String,
        fingerprint hash ⟨.GET, "http://a.com/v", [("k", "v")], some [1], none⟩ =
          fingerprint hash ⟨.GET, "http://a.com/v", [("k", "v")], some [1], none⟩) :=
  ⟨by decide,
    signature_inj_amended .GET .GET "http://a.com/v" "http://a.com/v" [("k", "v")]
      (some [1]) none none (by decide) (by decide) rfl⟩

theorem iterRangesF_stops (cs : Option Int) (T : Int) :
    ∀ (fuel : Nat) (s e : Int), T + 1 - s ≤ 0 → iterRangesF cs T fuel s e = [] := by
  intro fuel s e h
  cases fuel with
  | zero => rfl
  | succ g =>
      simp only [iterRangesF]
      rw [if_neg (by omega)]

theorem iterRangesF_fuel_invariant (cs : Option Int) (T : Int) :
    ∀ (f1 f2 : Nat) (s e : Int), (T + 1 - s).toNat ≤ f1 → (T + 1 - s).toNat ≤ f2 →
      iterRangesF cs T f1 s e = iterRangesF cs T f2 s e := by
  intro f1
  induction f1 with
  | zero =>
      intro f2 s e h1 h2
      rw [iterRangesF_stops cs T 0 s e (by omega), iterRangesF_stops cs T f2 s e (by omega)]
  | succ g ih =>
      intro f2 s e h1 h2
      cases f2 with
      | zero =>
          rw [iterRangesF_stops cs T (g + 1) s e (by omega),
            iterRangesF_stops cs T 0 s e (by omega)]
      | succ g2 =>
          simp only [iterRangesF]
          by_cases hc : e ≤ T ∧ s ≤ e
          · rw [if_pos hc, if_pos hc]
            congr 1
            exact ih g2 (e + 1) _ (by omega) (by omega)
          · rw [if_neg hc, if_neg hc]

theorem iterRanges_cons (s e T : Int) (cs : Option Int) (h1 : s ≤ e) (h2 : e ≤ T) :
    iterRanges s e T cs =
      (s, e) :: iterRanges (e + 1)
        (if e + rangeStep cs s e > T then T else e + rangeStep cs s e) T cs := by
  have hfuel : iterRangesF cs T ((T + 1 - s).toNat + 1) s e =
      (s, e) :: iterRangesF cs T ((T + 1 - s).toNat) (e + 1)
        (if e + rangeStep cs s e > T then T else e + rangeStep cs s e) := by
    simp only [iterRangesF]
    rw [if_pos ⟨h2, h1⟩]
  unfold iterRanges
  rw [hfuel]
  congr 1
  exact iterRangesF_fuel_invariant cs T _ _ _ _ (by omega) (by omega)

theorem iterRanges_nil (s e T : Int) (cs : Option Int) (h : T < e ∨ e < s) :
    iterRanges s e T cs = [] := by
  unfold iterRanges
  simp only [iterRangesF]
  rw [if_neg (by rcases h with h | h <;> omega)]

theorem getLast?_cons_of_ne {X : Type} (a : X) (l : List X) (h : l ≠ []) :
    (a :: l).getLast? = l.getLast? := by
  cases l with
  | nil => exact absurd rfl h
  | cons b bs => rfl

theorem iterRanges_plan_core :
    ∀ (n : Nat) (s e T : Int), (T - s).toNat ≤ n → s ≤ e → e ≤ T →
      (iterRanges s e T none).length = ((T - s).toNat / (e - s + 1).toNat) + 1 ∧
      (iterRanges s e T none).Chain' (fun r1 r2 => r2.1 = r1.2 + 1) ∧
      (iterRanges s e T none).head? = some (s, e) ∧
      ((iterRanges s e T none).getLast?).map Prod.snd = some T := by
  intro n
  induction n with
  | zero =>
      intro s e T hn h1 h2
      have hs : s = T := by omega
      have he : e = T := by omega
      rw [iterRanges_cons s e T none h1 h2]
      have hstep : rangeStep none s e = e - s + 1 := rfl
      have hcap : e + rangeStep none s e > T := by rw [hstep]; omega
      rw [if_pos hcap]
      rw [iterRanges_nil (e + 1) T T none (Or.inr (by omega))]
      refine ⟨?_, ?_, ?_, ?_⟩
      · simp
        rw [Nat.div_eq_of_lt (by omega)]
      · simp
      · rfl
      · simp [he]
  | succ g ih =>
      intro s e T hn h1 h2
      rw [iterRanges_cons s e T none h1 h2]
      have hstep : rangeStep none s e = e - s + 1 := rfl
      by_cases hET : e = T
      · have hcap : e + rangeStep none s e > T := by rw [hstep]; omega
        rw [if_pos hcap]
        rw [iterRanges_nil (e + 1) T T none (Or.inr (by omega))]
        refine ⟨?_, ?_, ?_, ?_⟩
        · simp
          rw [Nat.div_eq_of_lt (by omega)]
        · simp
        · rfl
        · simp [hET]
      · have heT : e < T := by omega
        by_cases hcap : e + rangeStep none s e > T
        · rw [if_pos hcap]
          rw [hstep] at hcap
          obtain ⟨ihlen, ihchain, ihhead, ihlast⟩ :=
            ih (e + 1) T T (by omega) (by omega) le_rfl
          have hne : iterRanges (e + 1) T T none ≠ [] := by
            intro hnil
            rw [hnil] at ihhead
            simp at ihhead
          refine ⟨?_, ?_, ?_, ?_⟩
          · simp only [List.length_cons]
            rw [ihlen, Nat.div_eq_of_lt (by omega)]
            have hone : (T - s).toNat / (e - s + 1).toNat = 1 :=
              Nat.div_eq_of_lt_le (by omega) (by omega)
            omega
          · rw [List.chain'_cons']
            refine ⟨?_, ihchain⟩
            intro y hy
            rw [ihhead] at hy
            simp only [Option.mem_def, Option.some.injEq] at hy
            rw [← hy]
          · rfl
          · rw [getLast?_cons_of_ne _ _ hne]
            exact ihlast
        · rw [if_neg hcap]
          rw [hstep] at hcap
          have hwrw : e + rangeStep none s e - (e + 1) + 1 = e - s + 1 := by
            rw [hstep]; ring
          obtain ⟨ihlen, ihchain, ihhead, ihlast⟩ :=
            ih (e + 1) (e + rangeStep none s e) T (by omega)
              (by rw [hstep]; omega) (by rw [hstep]; omega)
          have hne : iterRanges (e + 1) (e + rangeStep none s e) T none ≠ [] := by
            intro hnil
            rw [hnil] at ihhead
            simp at ihhead
          refine ⟨?_, ?_, ?_, ?_⟩
          · simp only [List.length_cons]
            rw [ihlen, hwrw]
            have hsum : (T - s).toNat = (T - (e + 1)).toNat + (e - s + 1).toNat := by omega
            rw [hsum, Nat.add_div_right _ (by omega : 0 < (e - s + 1).toNat)]
          · rw [List.chain'_cons']
            refine ⟨?_, ihchain⟩
            intro y hy
            rw [ihhead] at hy
            simp only [Option.mem_def, Option.some.injEq] at hy
            rw [← hy]
          · rfl
          · rw [getLast?_cons_of_ne _ _ hne]
            exact ihlast

/-- C3: for all integers `start ≤ end ≤ total_size`, the planner with no
chunk size yields a finite sequence of contiguous ranges (each begins one
past the previous range's end) starting at `(start, end)`, the final
range's end equals `total_size`, and the length is
`⌈(total_size - start + 1) / step⌉` with `step = end - start + 1`; and when
the initial end exceeds `total_size` (e.g. `(0, 10, 9)`) the sequence is
empty. -/
theorem iterRanges_plan_spec (s e T : Int) :
    (s ≤ e → e ≤ T →
      (iterRanges s e T none).Chain' (fun r1 r2 => r2.1 = r1.2 + 1) ∧
      (iterRanges s e T none).head? = some (s, e) ∧
      ((iterRanges s e T none).getLast?).map Prod.snd = some T ∧
      ((iterRanges s e T none).length : Int) = intCeilDiv (T - s + 1) (e - s + 1)) ∧
    (T < e → iterRanges s e T none = []) := by
  constructor
  · intro h1 h2
    obtain ⟨hlen, hchain, hhead, hlast⟩ :=
      iterRanges_plan_core (T - s).toNat s e T le_rfl h1 h2
    refine ⟨hchain, hhead, hlast, ?_⟩
    rw [hlen]
    unfold intCeilDiv
    have hrw : T - s + 1 + (e - s + 1) - 1 = (T - s) + 1 * (e - s + 1) := by ring
    rw [hrw, Int.add_mul_ediv_right _ _ (by omega : (e - s + 1) ≠ 0)]
    push_cast
    rw [Int.toNat_of_nonneg (by omega : (0 : Int) ≤ T - s),
      Int.toNat_of_nonneg (by omega : (0 : Int) ≤ e - s + 1)]
  · intro h
    exact iterRanges_nil s e T none (Or.inl h)

/-- C3 witness: the plan for `(0, 3, 10)` (three contiguous ranges ending
at 10, length `⌈11/4⌉ = 3`) and the empty plan for `(0, 10, 9)`. -/
theorem iterRanges_plan_witness :
    ((0 : Int) ≤ 3 ∧ (3 : Int) ≤ 10 ∧
      ((iterRanges 0 3 10 none).Chain' (fun r1 r2 => r2.1 = r1.2 + 1) ∧
       (iterRanges 0 3 10 none).head? = some (0, 3) ∧
       ((iterRanges 0 3 10 none).getLast?).map Prod.snd = some 10 ∧
       ((iterRanges 0 3 10 none).length : Int) = intCeilDiv (10 - 0 + 1) (3 - 0 + 1))) ∧
    ((9 : Int) < 10 ∧ iterRanges 0 10 9 none = []) :=
  ⟨⟨by decide, by decide, (iterRanges_plan_spec 0 3 10).1 (by decide) (by decide)⟩,
   ⟨by decide, (iterRanges_plan_spec 0 10 9).2 (by decide)⟩⟩

end Megu
